import Mathlib

/-!
A shallow embedding of the `codegrep` indexer (`src/indexer.rs` together with
the pieces of `src/utils.rs` it uses), and proofs about it.

Modelling conventions:
* Rust `String`s are Lean `String`s; most string manipulation is done on
  `List Char` so that every definition is structurally recursive and hence
  evaluable by the kernel.
* `HashMap<String, T>` is modelled as an association list `List (String × T)`
  where `insert` overwrites the key (`insertA`) and `entry(..).and_modify(..)`
  maps over the entry when present (`updateA`).  Lookup is `List.lookup`.
* The file system seen by `walkdir` / `fs` is modelled as a finite tree
  (`FsEntry`); a file carries either its raw text or an I/O error message.
* The `regex` crate is modelled by a small backtracking matcher
  (leftmost-first, greedy, Perl-style preference order) over the exact regex
  fragment used by the three patterns of `Indexer::new`: literals,
  alternations of literals, character classes with `?`/`*`/`+`, and capture
  groups around classes.
* `process::exit` / `.unwrap()` panics are modelled as explicit `fatal` /
  `crash` result values; `logger::warn` is modelled by counting warnings.
-/

namespace Codegrep

/-! ## Character classes and basic string helpers -/

/-- The `\w` class of the Rust `regex` crate, restricted to ASCII inputs:
letters, digits and underscore. -/
def isWordChar (c : Char) : Bool := c.isAlphanum || c = '_'

/-- The `\s` class (whitespace), restricted to ASCII whitespace. -/
def isSpaceChar (c : Char) : Bool :=
  c = ' ' || c = '\t' || c = '\n' || c = '\r' || c = '\x0b' || c = '\x0c'

/-- Does `pat` occur as a contiguous substring of the character list?
Models Rust's `str::contains(substring)`. -/
def listContains (pat : List Char) : List Char → Bool
  | [] => pat.isEmpty
  | c :: cs => pat.isPrefixOf (c :: cs) || listContains pat cs

/-- Rust `str::contains` on strings. -/
def strContains (s pat : String) : Bool := listContains pat.toList s.toList

/-- Rust `str::starts_with` on strings. -/
def strStarts (s pre : String) : Bool := pre.toList.isPrefixOf s.toList

/-- Rust `str::ends_with` on strings. -/
def strEnds (s suf : String) : Bool := suf.toList.reverse.isPrefixOf s.toList.reverse

/-- Split a character list at every occurrence of the separator character;
models Rust `str::split(sep)` (and `String::split_on`) for a one-character
separator: `n` separators yield `n + 1` (possibly empty) pieces. -/
def splitOnChar (sep : Char) : List Char → List (List Char)
  | [] => [[]]
  | c :: cs =>
    if c = sep then [] :: splitOnChar sep cs
    else
      match splitOnChar sep cs with
      | [] => [[c]]
      | h :: t => (c :: h) :: t

/-- Drop whitespace from both ends; models Rust `str::trim` (ASCII). -/
def trimChars (l : List Char) : List Char :=
  ((l.dropWhile isSpaceChar).reverse.dropWhile isSpaceChar).reverse

/-- Rust `str::trim` on strings. -/
def trimStr (s : String) : String := String.mk (trimChars s.toList)

/-- Join pieces with a separator string (inverse of splitting). -/
def joinWith (sep : String) : List String → String
  | [] => ""
  | [x] => x
  | x :: y :: xs => x ++ sep ++ joinWith sep (y :: xs)

/-- Join character-list lines with a separator character; models
`Vec::join("\n")` in `find_fn_imports`. -/
def intercalateChar (sep : Char) : List (List Char) → List Char
  | [] => []
  | [x] => x
  | x :: y :: xs => x ++ sep :: intercalateChar sep (y :: xs)

/-- Strip one trailing carriage return, as Rust `str::lines` does for
`\r\n` line endings. -/
def stripCR (l : List Char) : List Char :=
  if l.getLast? = some '\r' then l.dropLast else l

/-- Rust `str::lines`: split at `\n`, strip a `\r` left at the end of each
terminated line, and do not produce a final empty line for a trailing
newline. -/
def rustLines (raw : String) : List (List Char) :=
  let parts := splitOnChar '\n' raw.toList
  let init := parts.dropLast.map stripCR
  match parts.getLast? with
  | some last => if last.isEmpty then init else init ++ [last]
  | none => init

/-- The trimmed line content stored by `store_content`:
`read_to_string(..).lines().map(|s| s.trim().to_string()).collect()`. -/
def contentOf (raw : String) : List String :=
  (rustLines raw).map (fun cs => String.mk (trimChars cs))

/-! ## Association lists standing in for `HashMap` -/

/-- `HashMap::insert`: the new binding replaces any previous binding of the
same key. -/
def insertA {α : Type} (m : List (String × α)) (k : String) (v : α) :
    List (String × α) :=
  (k, v) :: m.filter (fun p => p.1 != k)

/-- `HashMap::entry(k).and_modify(f)`: apply `f` to the value bound to `k`
when `k` is present; do nothing otherwise. -/
def updateA {α : Type} (m : List (String × α)) (k : String) (f : α → α) :
    List (String × α) :=
  m.map (fun p => if p.1 == k then (p.1, f p.2) else p)

/-! ## A matcher for the regex fragment used by the three patterns

Each pattern of `Indexer::new` is a plain sequence of: literal strings,
alternations of literal strings, single-character classes, optional
single-character classes (`X?`), and greedy repetitions of a class
(`X*` / `X+`), some of which capture.  `matchItems` implements
Perl-style (leftmost-first) matching with greedy preference and
backtracking for exactly this fragment, which is the semantics of the
`regex` crate on these patterns. -/

/-- One item of a regex in the fragment described above. -/
inductive RItem where
  | lit (s : String)
  | alts (ss : List String)
  | one (p : Char → Bool)
  | opt (p : Char → Bool)
  | many (p : Char → Bool) (lo : Nat) (cap : Option Nat)

/-- Captured groups: group index paired with captured text. -/
abbrev Caps := List (Nat × String)

/-- Try the repetition counts `lo + d`, `lo + d - 1`, ..., `lo` in that
order (greedy: longest first), returning the first success. -/
def tryCounts (attempt : Nat → Option (List Char × Caps)) (lo : Nat) :
    Nat → Option (List Char × Caps)
  | 0 => attempt lo
  | d + 1 =>
    match attempt (lo + d + 1) with
    | some r => some r
    | none => tryCounts attempt lo d

/-- Try each literal alternative in order (leftmost-first preference),
running the continuation on the rest of the input. -/
def tryAlts (cont : List Char → Option (List Char × Caps)) :
    List String → List Char → Option (List Char × Caps)
  | [], _ => none
  | s :: ss, cs =>
    match (if s.toList.isPrefixOf cs then cont (cs.drop s.toList.length) else none) with
    | some r => some r
    | none => tryAlts cont ss cs

/-- Match a sequence of items at the start of the input, returning the
input remaining after the match together with the captures.  Backtracking
order follows Perl-style preference: greedy repetitions try longer first,
optional items try the present branch first, alternatives in order.
The fuel argument only makes the recursion structural (so that the kernel
can evaluate matches); one unit is spent per item, so any fuel of at least
the number of items gives the fuel-free semantics. -/
def matchItemsF : Nat → List RItem → List Char → Option (List Char × Caps)
  | _, [], cs => some (cs, [])
  | 0, _ :: _, _ => none
  | fuel + 1, .lit s :: rest, cs =>
    if s.toList.isPrefixOf cs then matchItemsF fuel rest (cs.drop s.toList.length)
    else none
  | fuel + 1, .alts ss :: rest, cs =>
    tryAlts (fun cs2 => matchItemsF fuel rest cs2) ss cs
  | fuel + 1, .one p :: rest, cs =>
    match cs with
    | [] => none
    | c :: cs2 => if p c then matchItemsF fuel rest cs2 else none
  | fuel + 1, .opt p :: rest, cs =>
    match cs with
    | [] => matchItemsF fuel rest []
    | c :: cs2 =>
      if p c then
        match matchItemsF fuel rest cs2 with
        | some r => some r
        | none => matchItemsF fuel rest (c :: cs2)
      else matchItemsF fuel rest (c :: cs2)
  | fuel + 1, .many p lo cap :: rest, cs =>
    let mx := (cs.takeWhile p).length
    if mx < lo then none
    else
      tryCounts
        (fun k =>
          match matchItemsF fuel rest (cs.drop k) with
          | some (rem, caps) =>
            some (rem,
              match cap with
              | some i => (i, String.mk (cs.take k)) :: caps
              | none => caps)
          | none => none)
        lo (mx - lo)

/-- Match a sequence of items at the start of the input. -/
def matchItems (items : List RItem) (cs : List Char) :
    Option (List Char × Caps) :=
  matchItemsF items.length items cs

/-- Leftmost match: try to match at each successive start position;
models an unanchored `Regex::captures`-style search. -/
def findFirst (items : List RItem) : List Char → Option (List Char × Caps)
  | [] => matchItems items []
  | c :: cs =>
    match matchItems items (c :: cs) with
    | some r => some r
    | none => findFirst items cs

/-- Successive non-overlapping leftmost matches (`Regex::captures_iter`),
with fuel for termination; every pattern used here consumes at least one
character per match, so `length + 1` fuel is never exhausted early. -/
def capturesIterGo (items : List RItem) : Nat → List Char → List Caps
  | 0, _ => []
  | fuel + 1, cs =>
    match findFirst items cs with
    | none => []
    | some (rem, caps) => caps :: capturesIterGo items fuel rem

/-- All captures of successive non-overlapping leftmost matches. -/
def capturesIter (items : List RItem) (cs : List Char) : List Caps :=
  capturesIterGo items (cs.length + 1) cs

/-- Look up a capture group (a group in these patterns always participates
in a match, so the default is never surfaced). -/
def getCap (caps : Caps) (i : Nat) : String := (List.lookup i caps).getD ""

/-! ## The three patterns of `Indexer::new` -/

/-- `fre`: the function-declaration pattern `^\s*function\s+(\w*)\s*\(`.
The leading `^` makes the search anchored at the start of the line. -/
def freItems : List RItem :=
  [.many isSpaceChar 0 none, .lit "function", .many isSpaceChar 1 none,
   .many isWordChar 0 (some 1), .many isSpaceChar 0 none, .lit "("]

/-- `afre`: the assignment-declaration pattern
`^\s*(const|let|var)\s+(\w*)\s+=\s+\(`. -/
def afreItems : List RItem :=
  [.many isSpaceChar 0 none, .alts ["const", "let", "var"],
   .many isSpaceChar 1 none, .many isWordChar 0 (some 2),
   .many isSpaceChar 1 none, .lit "=", .many isSpaceChar 1 none, .lit "("]

/-- The `[\s\w,]` class of the import pattern's symbol list. -/
def isSymChar (c : Char) : Bool := isSpaceChar c || isWordChar c || c = ','

/-- The `[\w\.\/]` class of the import pattern's module path. -/
def isPathChar (c : Char) : Bool := isWordChar c || c = '.' || c = '/'

/-- The `['"]` class: a single or double quote. -/
def isQuote (c : Char) : Bool := c = Char.ofNat 39 || c = '"'

/-- `ifre`: the import pattern
`(const|let|var)\s*\x7b?([\s\w,]+)\x7d?\s*=\s*require\(['"]([\w\.\/]+)['"]\)`
(braces written in hex here).  Unanchored. -/
def ifreItems : List RItem :=
  [.alts ["const", "let", "var"], .many isSpaceChar 0 none,
   .opt (fun c => c = '\x7b'), .many isSymChar 1 (some 2),
   .opt (fun c => c = '\x7d'), .many isSpaceChar 0 none, .lit "=",
   .many isSpaceChar 0 none, .lit "require(", .one isQuote,
   .many isPathChar 1 (some 3), .one isQuote, .lit ")"]

/-- `fre.captures(line)` followed by `cap[1]`: the identifier captured by
the function-declaration pattern, when the line matches. -/
def fre_capture (line : String) : Option String :=
  (matchItems freItems line.toList).map (fun r => getCap r.2 1)

/-- `afre.captures(line)` followed by `cap[2]`: the identifier captured by
the assignment-declaration pattern, when the line matches. -/
def afre_capture (line : String) : Option String :=
  (matchItems afreItems line.toList).map (fun r => getCap r.2 2)

/-! ## Function and import extraction (`find_funcs`, `find_fn_imports`) -/

/-- The per-line step of `Indexer::find_funcs`: the function-declaration
pattern is tried first; the assignment-declaration pattern is tried only
when the first does not match. -/
def lineFunc (line : String) : Option String :=
  match fre_capture line with
  | some name => some name
  | none =>
    match afre_capture line with
    | some name => some name
    | none => none

/-- The contribution of one enumerated line to `find_funcs`. -/
def lineHit (p : Nat × String) : Option (String × Nat) :=
  match lineFunc p.2 with
  | some name => some (name, p.1)
  | none => none

/-- `Indexer::find_funcs` on a file's stored content: every line is scanned
in order; a matching line contributes `(identifier, line index)`. -/
def find_funcs (content : List String) : List (String × Nat) :=
  content.enum.filterMap lineHit

/-- The `fn_offsets` map built by the `find_funcs` loop of `index_file`:
each pair is inserted in order, so a later pair overwrites an earlier one
with the same identifier. -/
def build_fn_offsets (funcs : List (String × Nat)) : List (String × Nat) :=
  funcs.foldl (fun m p => insertA m p.1 p.2) []

/-- The blob `content.join("\n")` scanned by `find_fn_imports`. -/
def blobOf (content : List String) : List Char :=
  intercalateChar '\n' (content.map String.toList)

/-- The per-match step of `find_fn_imports`: `jump = cap[3]`, and every
comma-separated, trimmed piece of `cap[2]` is paired with it. -/
def importPairs (caps : Caps) : List (String × String) :=
  let jump := getCap caps 3
  ((splitOnChar ',' (getCap caps 2).toList).map
    (fun cs => String.mk (trimChars cs))).map (fun fname => (fname, jump))

/-- All `(identifier, module path)` pairs extracted from a blob. -/
def importsOfBlob (blob : List Char) : List (String × String) :=
  (capturesIter ifreItems blob).flatMap importPairs

/-- `Indexer::find_fn_imports` on a file's stored content. -/
def find_fn_imports (content : List String) : List (String × String) :=
  importsOfBlob (blobOf content)

/-! ## The data model: `Index` records and the catalog -/

/-- The per-file `Index` record of `indexer.rs`: trimmed content lines,
local function offsets, and imported-symbol targets. -/
structure Index where
  content : List String
  fn_offsets : List (String × Nat)
  fn_imports : List (String × String)
deriving DecidableEq

/-- `Indexer.index`: the catalog mapping absolute file path to `Index`. -/
abbrev Catalog := List (String × Index)

/-- `Index::find_local_fn_offset`. -/
def find_local_fn_offset (idx : Index) (func_name : String) : Option Nat :=
  List.lookup func_name idx.fn_offsets

/-- The observable outcome of `iter_fn_content`: either a returned line
sequence together with the number of warnings logged while producing it
(the returned `OptionIterator` with `iter = None` is the empty sequence),
or a fatal condition (`process::exit` via `get_index`, or the `.unwrap()`
panic on a missing offset in the import target). -/
inductive QueryResult where
  | result (warnings : Nat) (lines : List String)
  | fatal (msg : String)
deriving DecidableEq

/-- Modelled from the spec: `get_absolute_path` is declared in `utils` but
its definition is not among the sources; the spec says the query path is
"resolved to absolute form before lookup" by the canonicalizing path
utility.  Catalog keys in this model are already canonical path strings,
so resolution is the identity. -/
def get_absolute_path (p : String) : String := p

/-- `Indexer::iter_fn_content`.  Mirrors the source: a local lookup is
attempted only when no qualifier (`object`) is given and returns
immediately on success; otherwise the import key (`object` if present,
else the function name) is consulted, a miss logs one warning and yields
the empty sequence, and a hit fetches the target file's record (fatal when
absent from the catalog) and unwraps the target-local offset (fatal when
absent). -/
def iter_fn_content (catalog : Catalog) (file_path func_name : String)
    (object : Option String) : QueryResult :=
  let absolute_path := get_absolute_path file_path
  match List.lookup absolute_path catalog with
  | none => .fatal ("Failed to to find " ++ absolute_path ++ " index record")
  | some index =>
    match (match object with
           | none => find_local_fn_offset index func_name
           | some _ => none) with
    | some offset => .result 0 (index.content.drop offset)
    | none =>
      let imp := match object with
                 | some o => o
                 | none => func_name
      match List.lookup imp index.fn_imports with
      | none => .result 1 []
      | some import_path =>
        match List.lookup import_path catalog with
        | none => .fatal ("Failed to to find " ++ import_path ++ " index record")
        | some index2 =>
          match find_local_fn_offset index2 func_name with
          | none => .fatal "called unwrap on a missing local offset"
          | some offset => .result 0 (index2.content.drop offset)

/-! ## The file system and directory traversal -/

mutual
/-- A file-system entry as seen by `walkdir` and `fs::read_to_string`:
a file carries its raw text, or the display of the `io::Error` produced
when reading it fails. -/
inductive FsEntry where
  | file (name : String) (data : Except String String)
  | dir (name : String) (children : FsList)

/-- A list of sibling entries. -/
inductive FsList where
  | nil
  | cons (e : FsEntry) (es : FsList)
end

/-- `is_hidden` of `indexer.rs` on a file name (the `file_type.is_file()`
branch taken). -/
def fileHidden (n : String) : Bool :=
  strContains n "node_modules"
    || (!(strEnds n ".js") || strStarts n "." || strContains n "test")

/-- `is_hidden` of `indexer.rs` on a directory name (only the
`node_modules` test applies). -/
def dirHidden (n : String) : Bool := strContains n "node_modules"

/-- `is_hidden` on an entry. -/
def is_hidden : FsEntry → Bool
  | .file n _ => fileHidden n
  | .dir n _ => dirHidden n

deriving instance DecidableEq for Except

/-- A walked file: the directory components leading to it (from the walk
root inclusive), its file name, and its read result. -/
structure FileRec where
  dirs : List String
  name : String
  data : Except String String
deriving DecidableEq

mutual
/-- The files yielded by
`WalkDir::new(..).filter_entry(|e| !is_hidden(e)).filter(is_file)`:
`filter_entry` prunes whole subtrees whose root entry is hidden (the walk
root included), and only file entries are kept. -/
def walkFiles : FsEntry → List String → List FileRec
  | .file n d, pref => if fileHidden n then [] else [⟨pref, n, d⟩]
  | .dir n ch, pref => if dirHidden n then [] else walkFilesL ch (pref ++ [n])

/-- `walkFiles` over a sibling list. -/
def walkFilesL : FsList → List String → List FileRec
  | .nil, _ => []
  | .cons e es, pref => walkFiles e pref ++ walkFilesL es pref
end

mutual
/-- Every file under an entry, with no filtering at all. -/
def allFiles : FsEntry → List String → List FileRec
  | .file n d, pref => [⟨pref, n, d⟩]
  | .dir n ch, pref => allFilesL ch (pref ++ [n])

/-- `allFiles` over a sibling list. -/
def allFilesL : FsList → List String → List FileRec
  | .nil, _ => []
  | .cons e es, pref => allFiles e pref ++ allFilesL es pref
end

/-- The canonical path string of a walked entry. -/
def mkPath (dirs : List String) (name : String) : String :=
  joinWith "/" (dirs ++ [name])

/-- The canonical path of a walked file. -/
def recPath (r : FileRec) : String := mkPath r.dirs r.name

mutual
/-- Every existing path under an entry (files and directories); this is
what `fs::canonicalize` can succeed on. -/
def allPaths : FsEntry → List String → List String
  | .file n _, pref => [mkPath pref n]
  | .dir n ch, pref => mkPath pref n :: allPathsL ch (pref ++ [n])

/-- `allPaths` over a sibling list. -/
def allPathsL : FsList → List String → List String
  | .nil, _ => []
  | .cons e es, pref => allPaths e pref ++ allPathsL es pref
end

/-! ## Path arithmetic (`Path::parent`, `Path::join`, `fs::canonicalize`) -/

/-- `Path::new(p).parent()`: the path with its last component removed. -/
def parentDir (p : String) : String :=
  joinWith "/" (((splitOnChar '/' p.toList).map String.mk).dropLast)

/-- `Path::join`: appending a relative path, or replacing the base when
the appended path is absolute. -/
def pathJoin (d f : String) : String :=
  if strStarts f "/" then f else if d = "" then f else d ++ "/" ++ f

/-- Lexical normalization performed by `fs::canonicalize`: resolve `.`,
`..` and duplicate separators. -/
def normPath (p : String) : String :=
  joinWith "/"
    (((splitOnChar '/' p.toList).map String.mk).foldl
      (fun acc s =>
        if s = "." || s = "" then acc
        else if s = ".." then acc.dropLast
        else acc ++ [s])
      [])

/-- `fs::canonicalize` against the set of existing paths: it fails (with
an `io::Error`) whenever the path does not exist. -/
def canonicalizeP (paths : List String) (p : String) : Option String :=
  let n := normPath p
  if paths.contains n then some n else none

/-- The candidate import target of `index_file`:
`Path::new(file_path).parent().unwrap().join(format!("\x7b\x7d.js", import_path))`. -/
def resolveImport (file_path jump : String) : String :=
  pathJoin (parentDir file_path) (jump ++ ".js")

/-- The canonicalized import target, when it exists. -/
def canonResolve (paths : List String) (file_path jump : String) :
    Option String :=
  canonicalizeP paths (resolveImport file_path jump)

/-! ## Indexing (`store_content`, `index_file`, `index`) -/

/-- The outcome of a fallible operation: a returned value, a returned
`Err` (whose message the caller may wrap), or a crash of the process
(an `.unwrap()` panic or `process::exit`). -/
inductive RunResult (α : Type) where
  | ok (a : α)
  | error (msg : String)
  | crash (msg : String)
deriving DecidableEq

/-- One step of the import loop of `index_file`: the `(identifier, module
path)` pair is resolved against the importing file's parent directory and
inserted; `canonicalize().unwrap()` panics when the resolved path does not
exist. -/
def importStep (paths : List String) (file_path : String)
    (r : RunResult Catalog) (p : String × String) : RunResult Catalog :=
  match r with
  | .ok c =>
    match canonResolve paths file_path p.2 with
    | none =>
      .crash ("called unwrap on a canonicalize error for "
        ++ resolveImport file_path p.2)
    | some path =>
      .ok (updateA c file_path
        (fun f => { f with fn_imports := insertA f.fn_imports p.1 path }))
  | other => other

/-- The import loop of `index_file`. -/
def foldImports (paths : List String) (file_path : String)
    (l : List (String × String)) (catalog : Catalog) : RunResult Catalog :=
  l.foldl (importStep paths file_path) (.ok catalog)

/-- `Indexer::index_file`: store the trimmed content (propagating a read
error), record every `(identifier, offset)` pair found by `find_funcs`
(later pairs overwriting earlier ones), then record every import.
`find_funcs` is run on the content just stored, so its
"content not found" error branch is unreachable. -/
def index_file (paths : List String) (catalog : Catalog)
    (file_path : String) (data : Except String String) : RunResult Catalog :=
  match data with
  | .error e => .error e
  | .ok raw =>
    foldImports paths file_path (find_fn_imports (contentOf raw))
      ((find_funcs (contentOf raw)).foldl
        (fun c p => updateA c file_path
          (fun f => { f with fn_offsets := insertA f.fn_offsets p.1 p.2 }))
        (insertA catalog file_path ⟨contentOf raw, [], []⟩))

/-- One step of the traversal loop of `Indexer::index`: the walked file is
indexed; an `Err` from `index_file` aborts the pass wrapped as
`failed to parse file ..`, and a panic aborts the process. -/
def indexStep (paths : List String) (r : RunResult Catalog) (f : FileRec) :
    RunResult Catalog :=
  match r with
  | .ok c =>
    match index_file paths c (recPath f) f.data with
    | .ok c2 => .ok c2
    | .error e => .error ("failed to parse file " ++ e)
    | .crash m => .crash m
  | other => other

/-- The traversal loop of `Indexer::index`. -/
def foldIndex (paths : List String) (files : List FileRec)
    (catalog : Catalog) : RunResult Catalog :=
  files.foldl (indexStep paths) (.ok catalog)

/-- `Indexer::index`: fail when the project directory does not exist, walk
it otherwise, index every surviving file, and fail when the catalog ends
up empty. -/
def index (root : Option FsEntry) (project_dir : String) :
    RunResult Catalog :=
  match root with
  | none => .error ("no such file or directory exists for " ++ project_dir)
  | some t =>
    match foldIndex (allPaths t []) (walkFiles t []) [] with
    | .ok c =>
      if c.isEmpty then .error ("no files were found in " ++ project_dir)
      else .ok c
    | other => other

/-! ## Association-list lemmas -/

theorem lookup_filter_ne {α : Type} (m : List (String × α)) (n k : String)
    (h : n ≠ k) :
    List.lookup n (m.filter (fun p => p.1 != k)) = List.lookup n m := by
  induction m with
  | nil => rfl
  | cons x m ih =>
    by_cases hx : x.1 = k
    · have hb : (x.1 != k) = false := by simp [hx]
      have hnx : (n == x.1) = false := by simp [hx, h]
      simp only [List.filter_cons, hb, Bool.false_eq_true, if_false,
        List.lookup, hnx]
      exact ih
    · have hb : (x.1 != k) = true := by simp [hx]
      simp only [List.filter_cons, hb, if_true, List.lookup]
      cases hnx : (n == x.1) with
      | true => rfl
      | false => exact ih

theorem lookup_insertA {α : Type} (m : List (String × α)) (n k : String)
    (v : α) :
    List.lookup n (insertA m k v)
      = if n = k then some v else List.lookup n m := by
  by_cases h : n = k
  · simp [insertA, h, List.lookup]
  · simp only [insertA, List.lookup]
    rw [show (n == k) = false by simp [h]]
    simp [h, lookup_filter_ne m n k h]

theorem getLast?_cons {α : Type} (x : α) (t : List α) :
    (x :: t).getLast? = some (t.getLast?.getD x) := by
  induction t generalizing x with
  | nil => rfl
  | cons y t ih =>
    rw [List.getLast?_cons_cons, ih y]
    simp

theorem getLast?_none_iff {α : Type} (l : List α) :
    l.getLast? = none ↔ l = [] := by
  cases l with
  | nil => simp
  | cons x t => simp [getLast?_cons]

/-- The final binding of a key after a left fold of overwriting inserts:
the value of the last pair carrying that key, if any. -/
theorem lookup_foldl_insertA {β γ : Type} (v : String × β → γ)
    (l : List (String × β)) (m0 : List (String × γ)) (n : String) :
    List.lookup n (l.foldl (fun m p => insertA m p.1 (v p)) m0)
      = match (l.filter (fun p => p.1 == n)).getLast? with
        | some p => some (v p)
        | none => List.lookup n m0 := by
  induction l generalizing m0 with
  | nil => rfl
  | cons x l ih =>
    simp only [List.foldl_cons, List.filter_cons]
    rw [ih]
    by_cases hx : x.1 = n
    · rw [show (x.1 == n) = true by simp [hx], if_pos rfl, getLast?_cons]
      cases hfl : (l.filter (fun p => p.1 == n)).getLast? with
      | some p => simp
      | none => simp [lookup_insertA, hx]
    · rw [show (x.1 == n) = false by simp [hx]]
      simp only [Bool.false_eq_true, if_false]
      cases hfl : (l.filter (fun p => p.1 == n)).getLast? with
      | some p => simp
      | none =>
        simp only [lookup_insertA]
        rw [if_neg (fun h => hx h.symm)]

/-- The pairs of `find_funcs` that carry a given line index, starting the
enumeration at `s`: the (at most one) hit of line `i - s`. -/
theorem find_funcs_from_at (l : List String) (s i : Nat) :
    ((l.enumFrom s).filterMap lineHit).filter (fun p => p.2 == i)
      = if s ≤ i then
          (match l.get? (i - s) with
           | some line =>
             (match lineFunc line with
              | some a => [(a, i)]
              | none => [])
           | none => [])
        else [] := by
  induction l generalizing s with
  | nil =>
    simp only [List.enumFrom, List.filterMap_nil, List.filter_nil]
    cases Nat.decLe s i with
    | isTrue h => simp [List.get?]
    | isFalse h => simp [h]
  | cons x l ih =>
    simp only [List.enumFrom, List.filterMap_cons]
    cases hx : lineHit (s, x) with
    | none =>
      rw [ih (s + 1)]
      have hlf : lineFunc x = none := by
        by_contra hc
        cases hl : lineFunc x with
        | none => exact hc hl
        | some a => simp [lineHit, hl] at hx
      by_cases hsi : s = i
      · subst hsi
        simp [Nat.sub_self, List.get?, hlf]
      · by_cases hle : s ≤ i
        · have h1 : s + 1 ≤ i := by omega
          have h2 : i - s = (i - (s + 1)) + 1 := by omega
          simp only [hle, if_true, h1, if_true, h2, List.get?]
        · have h1 : ¬ s + 1 ≤ i := by omega
          simp [hle, h1]
    | some q =>
      obtain ⟨a, hl, rfl⟩ : ∃ a, lineFunc x = some a ∧ q = (a, s) := by
        cases hl : lineFunc x with
        | none => simp [lineHit, hl] at hx
        | some a =>
          simp only [lineHit, hl, Option.some.injEq] at hx
          exact ⟨a, rfl, hx.symm⟩
      simp only [List.filter_cons]
      rw [ih (s + 1)]
      by_cases hsi : s = i
      · subst hsi
        have hr : ¬ (s + 1 ≤ s) := by omega
        simp [hr, List.get?, hl]
      · have hb : (((a, s) : String × Nat).2 == i) = false := by simp [hsi]
        simp only [hb, Bool.false_eq_true, if_false]
        by_cases hle : s ≤ i
        · have h1 : s + 1 ≤ i := by omega
          have h2 : i - s = (i - (s + 1)) + 1 := by omega
          simp only [hle, if_true, h1, h2, List.get?]
        · have h1 : ¬ s + 1 ≤ i := by omega
          simp [hle, h1]


/-- The pairs of `find_funcs` carrying line index `i` are exactly the hit
of line `i`, when there is one. -/
theorem find_funcs_at (content : List String) (i : Nat) :
    (find_funcs content).filter (fun p => p.2 == i)
      = (match content.get? i with
         | some line =>
           (match lineFunc line with
            | some a => [(a, i)]
            | none => [])
         | none => []) := by
  have h := find_funcs_from_at content 0 i
  simp only [Nat.zero_le, if_true, Nat.sub_zero] at h
  simpa [find_funcs, List.enum] using h

/-! ## C7 and C10: per-line pattern precedence and offset recording -/

/-- C7: every line is tested against the function-declaration pattern
first, and against the assignment-declaration pattern only when the first
does not match, so a single line registers at most one definition; and in
the offsets map built from the scanned pairs, a later pair overwrites an
earlier pair with the same name (the binding is the last matching line's
offset). -/
theorem c7_precedence_and_overwrite (content : List String) (i : Nat)
    (line : String) (hline : content.get? i = some line) :
    ((find_funcs content).filter (fun p => p.2 == i)).length ≤ 1
    ∧ (∀ a, fre_capture line = some a →
        (find_funcs content).filter (fun p => p.2 == i) = [(a, i)])
    ∧ (∀ b, fre_capture line = none → afre_capture line = some b →
        (find_funcs content).filter (fun p => p.2 == i) = [(b, i)])
    ∧ (∀ n, List.lookup n (build_fn_offsets (find_funcs content))
        = ((find_funcs content).filter (fun p => p.1 == n)).getLast?.map
            Prod.snd) := by
  refine ⟨?_, ?_, ?_, ?_⟩
  · rw [find_funcs_at, hline]
    cases hl : lineFunc line <;> simp [hl]
  · intro a ha
    rw [find_funcs_at, hline]
    simp [lineFunc, ha]
  · intro b ha hb
    rw [find_funcs_at, hline]
    simp [lineFunc, ha, hb]
  · intro n
    rw [build_fn_offsets, lookup_foldl_insertA (fun p => p.2)]
    cases (List.filter (fun p => p.1 == n) (find_funcs content)).getLast? <;>
      simp

/-- Witness for C7: a two-line file in which line 0 declares `foo` with
the function pattern and line 1 redeclares `foo` with the assignment
pattern; line 0 registers exactly one pair, and the final binding is the
later line's offset. -/
theorem c7_precedence_and_overwrite_witness :
    (["function foo()", "const foo = (x)"].get? 0 = some "function foo()")
    ∧ (find_funcs ["function foo()", "const foo = (x)"]).filter
        (fun p => p.2 == 0) = [("foo", 0)]
    ∧ List.lookup "foo"
        (build_fn_offsets (find_funcs ["function foo()", "const foo = (x)"]))
        = some 1 :=
  ⟨by decide,
   (c7_precedence_and_overwrite ["function foo()", "const foo = (x)"] 0
      "function foo()" (by decide)).2.1 "foo" (by decide),
   by
    rw [(c7_precedence_and_overwrite ["function foo()", "const foo = (x)"] 0
      "function foo()" (by decide)).2.2.2 "foo"]
    decide⟩

/-- C10: the function-declaration pattern's identifier capture admits the
empty string: a line of the form `function (` registers a definition under
the empty-string key, that key is bound in the offsets map built from the
scan, and it is reachable through `iter_fn_content` like any other name. -/
theorem c10_empty_identifier (content : List String) (i : Nat)
    (h : content.get? i = some "function (") :
    fre_capture "function (" = some ""
    ∧ ("", i) ∈ find_funcs content
    ∧ ∃ off, List.lookup "" (build_fn_offsets (find_funcs content)) = some off
        ∧ ∀ (catalog : Catalog) (fp : String) (idx : Index),
            List.lookup fp catalog = some idx →
            idx.content = content →
            idx.fn_offsets = build_fn_offsets (find_funcs content) →
            iter_fn_content catalog fp "" none
              = .result 0 (content.drop off) := by
  have hcap : fre_capture "function (" = some "" := by decide
  have hmem : ("", i) ∈ find_funcs content := by
    have hf := find_funcs_at content i
    rw [h] at hf
    have hone : (find_funcs content).filter (fun p => p.2 == i) = [("", i)] := by
      rw [hf]; simp [lineFunc, hcap]
    exact List.mem_of_mem_filter (hone ▸ List.mem_singleton.mpr rfl)
  refine ⟨hcap, hmem, ?_⟩
  have hmemf : ("", i) ∈ (find_funcs content).filter (fun p => p.1 == "") :=
    List.mem_filter.mpr ⟨hmem, by simp⟩
  have hne : (find_funcs content).filter (fun p => p.1 == "") ≠ [] :=
    List.ne_nil_of_mem hmemf
  cases hlast : ((find_funcs content).filter (fun p => p.1 == "")).getLast? with
  | none => exact absurd ((getLast?_none_iff _).mp hlast) hne
  | some q =>
    refine ⟨q.2, ?_, ?_⟩
    · rw [build_fn_offsets, lookup_foldl_insertA (fun p => p.2), hlast]
    · intro catalog fp idx hfp hc ho
      have hoff : List.lookup "" idx.fn_offsets = some q.2 := by
        rw [ho, build_fn_offsets, lookup_foldl_insertA (fun p => p.2), hlast]
      simp [iter_fn_content, get_absolute_path, find_local_fn_offset, hfp,
        hoff, hc]

/-- Witness for C10: the one-line file `function (` registers the
empty-string name. -/
theorem c10_empty_identifier_witness :
    (["function ("].get? 0 = some "function (")
    ∧ ("", 0) ∈ find_funcs ["function ("] :=
  ⟨by decide, (c10_empty_identifier ["function ("] 0 (by decide)).2.1⟩

/-- C2: for an indexed file and a function name present in its local
offsets, a query without qualifier returns that file's own content lines
from the recorded offset, and the result is the same whatever the
file's import map contains (the import map is never consulted). -/
theorem c2_local_precedence (catalog : Catalog) (file n : String)
    (idx : Index) (off : Nat)
    (hfile : List.lookup file catalog = some idx)
    (hoff : List.lookup n idx.fn_offsets = some off) :
    iter_fn_content catalog file n none = .result 0 (idx.content.drop off)
    ∧ ∀ m : List (String × String),
        iter_fn_content (insertA catalog file { idx with fn_imports := m })
            file n none
          = .result 0 (idx.content.drop off) := by
  constructor
  · simp [iter_fn_content, get_absolute_path, find_local_fn_offset, hfile,
      hoff]
  · intro m
    have hf :
        List.lookup file (insertA catalog file { idx with fn_imports := m })
          = some { idx with fn_imports := m } := by
      simp [lookup_insertA]
    simp [iter_fn_content, get_absolute_path, find_local_fn_offset, hf, hoff]

/-- Witness for C2: a concrete catalog in which `f` is both a local
function of `a.js` and an imported symbol of `a.js`; the local offset
wins. -/
theorem c2_local_precedence_witness :
    (List.lookup "a.js"
        [("a.js", (⟨["function f()", "x"], [("f", 0)], [("f", "b.js")]⟩ : Index))]
      = some ⟨["function f()", "x"], [("f", 0)], [("f", "b.js")]⟩)
    ∧ iter_fn_content
        [("a.js", ⟨["function f()", "x"], [("f", 0)], [("f", "b.js")]⟩)]
        "a.js" "f" none
      = .result 0 ["function f()", "x"] :=
  ⟨by decide,
    (c2_local_precedence
      [("a.js", ⟨["function f()", "x"], [("f", 0)], [("f", "b.js")]⟩)]
      "a.js" "f" ⟨["function f()", "x"], [("f", 0)], [("f", "b.js")]⟩ 0
      (by decide) (by decide)).1⟩

/-- C3: when the import key (the qualifier if present, else the function
name) is absent from the file's imported symbols, and — for an
unqualified query — the name is also not a local function, the query
returns the empty sequence with exactly one warning logged, and no fatal
condition. -/
theorem c3_unresolved_import (catalog : Catalog) (file n : String)
    (object : Option String) (idx : Index)
    (hfile : List.lookup file catalog = some idx)
    (hlocal : object = none → List.lookup n idx.fn_offsets = none)
    (himp : List.lookup (object.getD n) idx.fn_imports = none) :
    iter_fn_content catalog file n object = .result 1 [] := by
  cases object with
  | none =>
    simp only [Option.getD] at himp
    simp [iter_fn_content, get_absolute_path, find_local_fn_offset, hfile,
      hlocal rfl, himp]
  | some o =>
    simp only [Option.getD] at himp
    simp [iter_fn_content, get_absolute_path, find_local_fn_offset, hfile,
      himp]

/-- Witness for C3: a concrete catalog where the queried name is neither
local nor imported; the query yields the empty sequence and one warning. -/
theorem c3_unresolved_import_witness :
    (List.lookup "a.js" [("a.js", (⟨["x"], [("f", 0)], []⟩ : Index))]
      = some ⟨["x"], [("f", 0)], []⟩)
    ∧ (List.lookup "g" ([("f", 0)] : List (String × Nat)) = none)
    ∧ iter_fn_content [("a.js", ⟨["x"], [("f", 0)], []⟩)] "a.js" "g" none
        = .result 1 [] :=
  ⟨by decide, by decide,
    c3_unresolved_import [("a.js", ⟨["x"], [("f", 0)], []⟩)] "a.js" "g" none
      ⟨["x"], [("f", 0)], []⟩ (by decide) (fun _ => by decide) (by decide)⟩

/-! ## Structure of a successful `index_file` run -/

theorem updateA_id {α : Type} (c : List (String × α)) (k : String) :
    updateA c k (fun v => v) = c := by
  simp only [updateA]
  have h : ∀ p ∈ c,
      (fun p : String × α => if p.1 == k then (p.1, p.2) else p) p = p := by
    intro p _
    cases p with
    | mk a b => by_cases hp : a = k <;> simp [hp]
  rw [List.map_congr_left h]
  simp

theorem updateA_updateA {α : Type} (c : List (String × α)) (k : String)
    (f g : α → α) :
    updateA (updateA c k f) k g = updateA c k (fun v => g (f v)) := by
  simp only [updateA, List.map_map]
  congr 1
  funext p
  by_cases hp : p.1 = k <;> simp [hp, Function.comp]

theorem updateA_insertA {α : Type} (c : List (String × α)) (k : String)
    (v : α) (F : α → α) :
    updateA (insertA c k v) k F = insertA c k (F v) := by
  simp only [insertA, updateA, List.map_cons, beq_self_eq_true, if_true]
  congr 1
  have h : ∀ p ∈ c.filter (fun p => p.1 != k),
      (fun p : String × α => if p.1 == k then (p.1, F p.2) else p) p = p := by
    intro p hp
    have := (List.mem_filter.mp hp).2
    simp only [bne_iff_ne, ne_eq, decide_eq_true_eq] at this
    simp [this]
  rw [List.map_congr_left h]
  simp

theorem foldl_updateA {α β : Type} (l : List β) (g : β → α → α) (k : String)
    (c : List (String × α)) :
    l.foldl (fun cat b => updateA cat k (g b)) c
      = updateA c k (fun v => l.foldl (fun v b => g b v) v) := by
  induction l generalizing c with
  | nil => exact (updateA_id c k).symm
  | cons x l ih => rw [List.foldl_cons, ih, updateA_updateA]; rfl

theorem foldl_offsets_field (l : List (String × Nat)) (ct : List String)
    (offs : List (String × Nat)) (imps : List (String × String)) :
    l.foldl (fun f p => { f with fn_offsets := insertA f.fn_offsets p.1 p.2 })
        (⟨ct, offs, imps⟩ : Index)
      = ⟨ct, l.foldl (fun m p => insertA m p.1 p.2) offs, imps⟩ := by
  induction l generalizing offs with
  | nil => rfl
  | cons x l ih => rw [List.foldl_cons, List.foldl_cons]; exact ih _

theorem keys_updateA {α : Type} (c : List (String × α)) (k : String)
    (F : α → α) :
    (updateA c k F).map Prod.fst = c.map Prod.fst := by
  simp only [updateA, List.map_map]
  congr 1
  funext p
  by_cases hp : p.1 = k <;> simp [hp, Function.comp]

theorem mem_keys_insertA {α : Type} (c : List (String × α)) (k : String)
    (v : α) (p : String) :
    p ∈ (insertA c k v).map Prod.fst ↔ p = k ∨ p ∈ c.map Prod.fst := by
  simp only [insertA, List.map_cons, List.mem_cons]
  constructor
  · rintro (h | h)
    · exact Or.inl h
    · obtain ⟨q, hq, rfl⟩ := List.mem_map.mp h
      exact Or.inr (List.mem_map.mpr ⟨q, (List.mem_filter.mp hq).1, rfl⟩)
  · rintro (h | h)
    · exact Or.inl h
    · by_cases hpk : p = k
      · exact Or.inl hpk
      · obtain ⟨q, hq, rfl⟩ := List.mem_map.mp h
        refine Or.inr (List.mem_map.mpr ⟨q, List.mem_filter.mpr ⟨hq, ?_⟩, rfl⟩)
        simpa using hpk

theorem mem_insertA {α : Type} (c : List (String × α)) (k : String) (v : α)
    (q : String × α) (h : q ∈ insertA c k v) : q = (k, v) ∨ q ∈ c := by
  rcases List.mem_cons.mp h with h | h
  · exact Or.inl h
  · exact Or.inr (List.mem_filter.mp h).1

theorem mem_foldl_insertA {β γ : Type} (v : String × β → γ)
    (l : List (String × β)) (m0 : List (String × γ)) (q : String × γ)
    (h : q ∈ l.foldl (fun m p => insertA m p.1 (v p)) m0) :
    (∃ p ∈ l, q = (p.1, v p)) ∨ q ∈ m0 := by
  induction l generalizing m0 with
  | nil => exact Or.inr h
  | cons x l ih =>
    rcases ih (insertA m0 x.1 (v x)) h with h' | h'
    · obtain ⟨p, hp, rfl⟩ := h'
      exact Or.inl ⟨p, List.mem_cons_of_mem x hp, rfl⟩
    · rcases mem_insertA m0 x.1 (v x) q h' with h' | h'
      · exact Or.inl ⟨x, List.mem_cons_self x l, h'⟩
      · exact Or.inr h'

theorem foldl_importStep_error (paths : List String) (fp : String)
    (l : List (String × String)) (m : String) :
    l.foldl (importStep paths fp) (.error m) = .error m := by
  induction l with
  | nil => rfl
  | cons x l ih => simpa [importStep] using ih

theorem foldl_importStep_crash (paths : List String) (fp : String)
    (l : List (String × String)) (m : String) :
    l.foldl (importStep paths fp) (.crash m) = .crash m := by
  induction l with
  | nil => rfl
  | cons x l ih => simpa [importStep] using ih

/-- A successful import loop: every import target canonicalized, and the
importing file's entry extended with the resolved bindings. -/
theorem foldImports_ok (paths : List String) (fp : String)
    (l : List (String × String)) (c c' : Catalog)
    (h : foldImports paths fp l c = .ok c') :
    (∀ p ∈ l, (canonResolve paths fp p.2).isSome)
    ∧ c' = updateA c fp (fun f =>
        { f with fn_imports :=
            (l.foldl
              (fun m p => insertA m p.1 ((canonResolve paths fp p.2).getD ""))
              f.fn_imports) }) := by
  induction l generalizing c with
  | nil =>
    simp only [foldImports, List.foldl_nil, RunResult.ok.injEq] at h
    subst h
    refine ⟨by simp, ?_⟩
    have heta : (fun f : Index => { f with fn_imports := f.fn_imports })
        = fun f : Index => f := by
      funext f
      rfl
    simp only [List.foldl_nil]
    rw [heta, updateA_id]
  | cons x l ih =>
    rw [foldImports, List.foldl_cons] at h
    cases hcr : canonResolve paths fp x.2 with
    | none =>
      rw [show importStep paths fp (.ok c) x
            = .crash ("called unwrap on a canonicalize error for "
                ++ resolveImport fp x.2) by simp [importStep, hcr]] at h
      rw [foldl_importStep_crash] at h
      cases h
    | some cp =>
      rw [show importStep paths fp (.ok c) x
            = .ok (updateA c fp (fun f =>
                { f with fn_imports := insertA f.fn_imports x.1 cp }))
            by simp [importStep, hcr]] at h
      obtain ⟨hall, hc'⟩ := ih _ h
      refine ⟨?_, ?_⟩
      · intro p hp
        rcases List.mem_cons.mp hp with rfl | hp
        · simp [hcr]
        · exact hall p hp
      · rw [hc', updateA_updateA]
        congr 1
        funext f
        simp [hcr]

/-- A successful `index_file` on readable data replaces (or creates) the
file's catalog entry with the trimmed content, the offsets built from
`find_funcs`, and the resolved imports; every import target must have
canonicalized. -/
theorem index_file_ok (paths : List String) (c : Catalog) (fp raw : String)
    (c' : Catalog) (h : index_file paths c fp (.ok raw) = .ok c') :
    (∀ p ∈ find_fn_imports (contentOf raw),
      (canonResolve paths fp p.2).isSome)
    ∧ c' = insertA c fp
        ⟨contentOf raw,
         build_fn_offsets (find_funcs (contentOf raw)),
         (find_fn_imports (contentOf raw)).foldl
           (fun m p => insertA m p.1 ((canonResolve paths fp p.2).getD ""))
           []⟩ := by
  simp only [index_file] at h
  have hfold :
      (find_funcs (contentOf raw)).foldl
          (fun cat p => updateA cat fp
            (fun f => { f with fn_offsets := insertA f.fn_offsets p.1 p.2 }))
          (insertA c fp ⟨contentOf raw, [], []⟩)
        = insertA c fp
            ⟨contentOf raw, build_fn_offsets (find_funcs (contentOf raw)),
             []⟩ := by
    rw [foldl_updateA, updateA_insertA, foldl_offsets_field]
    rfl
  rw [hfold] at h
  obtain ⟨hall, hc'⟩ := foldImports_ok paths fp _ _ _ h
  rw [hc', updateA_insertA]
  exact ⟨hall, rfl⟩

/-! ## C4: import resolution -/

theorem filter_key_of_nodup {β : Type} (l : List (String × β)) (n : String)
    (b : β) (hmem : (n, b) ∈ l) (hnodup : (l.map Prod.fst).Nodup) :
    l.filter (fun p => p.1 == n) = [(n, b)] := by
  induction l with
  | nil => cases hmem
  | cons x l ih =>
    simp only [List.map_cons, List.nodup_cons] at hnodup
    rcases List.mem_cons.mp hmem with rfl | hmem
    · simp only [List.filter_cons, beq_self_eq_true, if_true]
      have hnone : l.filter (fun p => p.1 == n) = [] := by
        apply List.filter_eq_nil_iff.mpr
        intro q hq
        have : q.1 ∈ l.map Prod.fst := List.mem_map.mpr ⟨q, hq, rfl⟩
        simp only [beq_iff_eq]
        intro hqn
        exact hnodup.1 (hqn ▸ this)
      rw [hnone]
    · have hxn : (x.1 == n) = false := by
        have : n ∈ l.map Prod.fst := List.mem_map.mpr ⟨(n, b), hmem, rfl⟩
        simp only [beq_eq_false_iff_ne, ne_eq]
        intro hxeq
        exact hnodup.1 (hxeq ▸ this)
      simp only [List.filter_cons, hxn, Bool.false_eq_true, if_false]
      exact ih hmem hnodup.2

/-- C4: for every `(identifier, module path)` pair produced by import
extraction (with pairwise distinct identifiers, as when no identifier is
imported twice), a successful `index_file` maps the identifier, in the
file's imported symbols, to the canonicalized join of the importing
file's parent directory with the module path suffixed by `.js` —
irrespective of how many identifiers were destructured together. -/
theorem c4_import_resolution (paths : List String) (c : Catalog)
    (fp raw n jump : String) (c' : Catalog)
    (hok : index_file paths c fp (.ok raw) = .ok c')
    (hmem : (n, jump) ∈ find_fn_imports (contentOf raw))
    (hnodup : ((find_fn_imports (contentOf raw)).map Prod.fst).Nodup) :
    ∃ cp, canonicalizeP paths (pathJoin (parentDir fp) (jump ++ ".js"))
        = some cp
      ∧ ∃ idx', List.lookup fp c' = some idx'
          ∧ List.lookup n idx'.fn_imports = some cp := by
  obtain ⟨hall, rfl⟩ := index_file_ok paths c fp raw c' hok
  have hsome : (canonResolve paths fp jump).isSome = true :=
    hall (n, jump) hmem
  cases hcp : canonResolve paths fp jump with
  | none => rw [hcp] at hsome; simp at hsome
  | some cp =>
    refine ⟨cp, hcp, ?_⟩
    refine ⟨⟨contentOf raw, build_fn_offsets (find_funcs (contentOf raw)),
        (find_fn_imports (contentOf raw)).foldl
          (fun m p => insertA m p.1 ((canonResolve paths fp p.2).getD ""))
          []⟩, ?_, ?_⟩
    · rw [lookup_insertA]
      simp
    · rw [lookup_foldl_insertA (fun p => (canonResolve paths fp p.2).getD ""),
        filter_key_of_nodup _ n jump hmem hnodup]
      simp [hcp]

/-- Witness for C4: a one-line file importing `b` from `./b`, with the
target `proj/b.js` existing; the identifier is mapped to the
canonicalized `proj/b.js`. -/
theorem c4_import_resolution_witness :
    (index_file ["proj", "proj/a.js", "proj/b.js"] [] "proj/a.js"
        (.ok "const b = require(\"./b\")")
      = .ok [("proj/a.js",
          ⟨["const b = require(\"./b\")"], [], [("b", "proj/b.js")]⟩)])
    ∧ (("b", "./b")
        ∈ find_fn_imports (contentOf "const b = require(\"./b\")"))
    ∧ ∃ cp,
        canonicalizeP ["proj", "proj/a.js", "proj/b.js"]
            (pathJoin (parentDir "proj/a.js") ("./b" ++ ".js"))
          = some cp
        ∧ ∃ idx',
            List.lookup "proj/a.js"
                [("proj/a.js",
                  (⟨["const b = require(\"./b\")"], [],
                    [("b", "proj/b.js")]⟩ : Index))]
              = some idx'
            ∧ List.lookup "b" idx'.fn_imports = some cp :=
  ⟨by decide, by decide,
    c4_import_resolution ["proj", "proj/a.js", "proj/b.js"] [] "proj/a.js"
      "const b = require(\"./b\")" "b" "./b"
      [("proj/a.js",
        ⟨["const b = require(\"./b\")"], [], [("b", "proj/b.js")]⟩)]
      (by decide) (by decide) (by decide)⟩

/-! ## C5: nonexistent import targets crash the indexing pass -/

/-- Counterexample to C5: a project whose only file imports `./b` while
`proj/b.js` does not exist.  Indexing does not succeed on that file: the
`canonicalize().unwrap()` in `index_file` panics during the indexing pass
(so the nonexistence of the target is not left to query time). -/
theorem c5_counterexample :
    index
        (some (.dir "proj"
          (.cons (.file "a.js" (.ok "const b = require(\x27./b\x27)")) .nil)))
        "proj"
      = .crash "called unwrap on a canonicalize error for proj/./b.js" := by
  decide

/-- The import loop crashes as soon as it reaches a pair whose module path
does not canonicalize. -/
theorem foldImports_crash_of_mem (paths : List String) (fp : String)
    (l : List (String × String)) (c : Catalog) (n jump : String)
    (hmem : (n, jump) ∈ l)
    (hnone : canonResolve paths fp jump = none) :
    ∃ m, foldImports paths fp l c = .crash m := by
  revert hmem
  induction l generalizing c with
  | nil => intro hmem; cases hmem
  | cons x l ih =>
    intro hmem
    rw [foldImports, List.foldl_cons]
    cases hcr : canonResolve paths fp x.2 with
    | none =>
      refine ⟨"called unwrap on a canonicalize error for "
        ++ resolveImport fp x.2, ?_⟩
      rw [show importStep paths fp (.ok c) x
            = .crash ("called unwrap on a canonicalize error for "
                ++ resolveImport fp x.2) by simp [importStep, hcr]]
      exact foldl_importStep_crash paths fp l _
    | some cp =>
      rcases List.mem_cons.mp hmem with heq | hmem'
      · rw [← heq] at hcr
        simp only at hcr
        rw [hcr] at hnone
        cases hnone
      · rw [show importStep paths fp (.ok c) x
              = .ok (updateA c fp (fun f =>
                  { f with fn_imports := insertA f.fn_imports x.1 cp }))
              by simp [importStep, hcr]]
        have h := ih (updateA c fp (fun f =>
          { f with fn_imports := insertA f.fn_imports x.1 cp })) hmem'
        rw [foldImports] at h
        exact h

/-- C5 amended: whenever import extraction yields a pair whose module path
does not canonicalize to an existing file, `index_file` crashes (the
`canonicalize().unwrap()` panic), instead of succeeding and deferring the
failure to query time. -/
theorem c5_amended_crash_on_missing_target (paths : List String)
    (c : Catalog) (fp raw n jump : String)
    (hmem : (n, jump) ∈ find_fn_imports (contentOf raw))
    (hnone : canonResolve paths fp jump = none) :
    ∃ m, index_file paths c fp (.ok raw) = .crash m := by
  simp only [index_file]
  exact foldImports_crash_of_mem paths fp _ _ n jump hmem hnone

/-- Witness for the amended C5: a one-line file importing `./b` with no
`proj/b.js` among the existing paths; `index_file` crashes. -/
theorem c5_amended_crash_on_missing_target_witness :
    (("b", "./b") ∈ find_fn_imports (contentOf "const b = require(\x27./b\x27)"))
    ∧ (canonResolve ["proj", "proj/a.js"] "proj/a.js" "./b" = none)
    ∧ ∃ m, index_file ["proj", "proj/a.js"] [] "proj/a.js"
        (.ok "const b = require(\x27./b\x27)") = .crash m :=
  ⟨by decide, by decide,
    c5_amended_crash_on_missing_target ["proj", "proj/a.js"] [] "proj/a.js"
      "const b = require(\x27./b\x27)" "b" "./b" (by decide) (by decide)⟩

/-! ## C6: the read-failure error message -/

/-- C6: a file that passes the traversal filter but cannot be read aborts
the entire indexing pass — but the returned message interpolates the
`io::Error`'s display (which does not carry the path) instead of the
failing file's path, so the error does not identify the failing file. -/
theorem c6_read_error_message :
    index
        (some (.dir "proj"
          (.cons (.file "a.js" (.error "No such file or directory (os error 2)"))
            (.cons (.file "b.js" (.ok "function f()")) .nil))))
        "proj"
      = .error "failed to parse file No such file or directory (os error 2)"
    ∧ strContains "failed to parse file No such file or directory (os error 2)"
        "a.js" = false := by
  constructor
  · decide
  · decide

/-! ## C8: import extraction over the joined blob -/

/-- Counterexample to C8: an import statement split across three lines,
none of which matches the import pattern alone, is nevertheless matched
after the lines are joined with newlines (the `\s` and symbol-list
classes of the pattern match the inserted newline characters). -/
theorem c8_counterexample :
    find_fn_imports ["const \x7b", "a", "\x7d = require(\x27./b\x27)"]
      = [("a", "./b")]
    ∧ capturesIter ifreItems ("const \x7b".toList) = []
    ∧ capturesIter ifreItems ("a".toList) = []
    ∧ capturesIter ifreItems ("\x7d = require(\x27./b\x27)".toList) = [] := by
  refine ⟨by decide, by decide, by decide, by decide⟩

/-- C8 amended: import extraction runs the import pattern over the file's
lines joined with newlines into one blob — so the result depends only on
that blob — and an import statement split across multiple source lines
can still be matched, because the pattern's whitespace and symbol-list
classes match the inserted newlines. -/
theorem c8_joined_blob (c1 c2 : List String) (h : blobOf c1 = blobOf c2) :
    find_fn_imports c1 = find_fn_imports c2
    ∧ find_fn_imports ["const \x7b", "a", "\x7d = require(\x27./b\x27)"]
        = [("a", "./b")] := by
  constructor
  · rw [find_fn_imports, find_fn_imports, h]
  · decide

/-- Witness for the amended C8: the three-line split import and its
one-line joined form produce the same blob, hence the same imports. -/
theorem c8_joined_blob_witness :
    (blobOf ["const \x7b", "a", "\x7d = require(\x27./b\x27)"]
      = blobOf ["const \x7b\na\n\x7d = require(\x27./b\x27)"])
    ∧ find_fn_imports ["const \x7b", "a", "\x7d = require(\x27./b\x27)"]
        = find_fn_imports ["const \x7b\na\n\x7d = require(\x27./b\x27)"] :=
  ⟨by decide,
    (c8_joined_blob ["const \x7b", "a", "\x7d = require(\x27./b\x27)"]
      ["const \x7b\na\n\x7d = require(\x27./b\x27)"] (by decide)).1⟩

/-! ## C9: recorded offsets index validly into the content -/

theorem mem_enumFrom_bound {α : Type} (l : List α) (s : Nat) (q : Nat × α)
    (h : q ∈ l.enumFrom s) : q.1 < s + l.length := by
  induction l generalizing s with
  | nil => cases h
  | cons x l ih =>
    rcases List.mem_cons.mp h with rfl | h
    · simp
    · have := ih (s + 1) h
      simp only [List.length_cons]
      omega

/-- Every offset recorded by `find_funcs` is a valid index into the
scanned content. -/
theorem find_funcs_lt (content : List String) (n : String) (i : Nat)
    (h : (n, i) ∈ find_funcs content) : i < content.length := by
  rw [find_funcs] at h
  obtain ⟨q, hq, hhit⟩ := List.mem_filterMap.mp h
  have hbound := mem_enumFrom_bound content 0 q hq
  have hi : q.1 = i := by
    rw [lineHit] at hhit
    cases hl : lineFunc q.2 with
    | none => rw [hl] at hhit; cases hhit
    | some a =>
      rw [hl] at hhit
      cases hhit
      rfl
  omega

/-- Membership in the built offsets map comes from the scanned pairs. -/
theorem mem_build_fn_offsets (funcs : List (String × Nat))
    (q : String × Nat) (h : q ∈ build_fn_offsets funcs) : q ∈ funcs := by
  rw [build_fn_offsets] at h
  have h' := mem_foldl_insertA (fun p => p.2) funcs [] q h
  rcases h' with ⟨p, hp, rfl⟩ | h'
  · exact hp
  · cases h'

theorem foldl_indexStep_error (paths : List String) (files : List FileRec)
    (m : String) :
    files.foldl (indexStep paths) (.error m) = .error m := by
  induction files with
  | nil => rfl
  | cons f files ih => simpa [indexStep] using ih

theorem foldl_indexStep_crash (paths : List String) (files : List FileRec)
    (m : String) :
    files.foldl (indexStep paths) (.crash m) = .crash m := by
  induction files with
  | nil => rfl
  | cons f files ih => simpa [indexStep] using ih

/-- Provenance of catalog entries after a successful indexing loop: an
entry either was already present, or is the freshly built record of some
raw file text. -/
theorem foldIndex_ok_mem (paths : List String) (files : List FileRec)
    (c c' : Catalog) (h : foldIndex paths files c = .ok c')
    (q : String × Index) (hq : q ∈ c') :
    q ∈ c
    ∨ ∃ raw, q.2.content = contentOf raw
        ∧ q.2.fn_offsets = build_fn_offsets (find_funcs (contentOf raw)) := by
  induction files generalizing c with
  | nil =>
    rw [foldIndex, List.foldl_nil] at h
    cases h
    exact Or.inl hq
  | cons f files ih =>
    rw [foldIndex, List.foldl_cons] at h
    cases hif : index_file paths c (recPath f) f.data with
    | ok c1 =>
      rw [show indexStep paths (.ok c) f = .ok c1 by
        simp [indexStep, hif]] at h
      rw [show (files.foldl (indexStep paths) (.ok c1))
            = foldIndex paths files c1 by rw [foldIndex]] at h
      rcases ih c1 h with h1 | h1
      · cases hdata : f.data with
        | error e =>
          rw [hdata] at hif
          rw [show index_file paths c (recPath f) (.error e) = .error e
            from rfl] at hif
          cases hif
        | ok raw =>
          rw [hdata] at hif
          obtain ⟨_, rfl⟩ := index_file_ok paths c (recPath f) raw c1 hif
          rcases mem_insertA _ _ _ q h1 with rfl | h2
          · exact Or.inr ⟨raw, rfl, rfl⟩
          · exact Or.inl h2
      · exact Or.inr h1
    | error e =>
      rw [show indexStep paths (.ok c) f
            = .error ("failed to parse file " ++ e) by
        simp [indexStep, hif]] at h
      rw [foldl_indexStep_error] at h
      cases h
    | crash m =>
      rw [show indexStep paths (.ok c) f = .crash m by
        simp [indexStep, hif]] at h
      rw [foldl_indexStep_crash] at h
      cases h

/-- A successful `index` run means the traversal loop succeeded on the
walked files starting from the empty catalog, and the catalog is the
loop's result. -/
theorem index_ok_elim (t : FsEntry) (pd : String) (catalog : Catalog)
    (hok : index (some t) pd = .ok catalog) :
    foldIndex (allPaths t []) (walkFiles t []) [] = .ok catalog := by
  rw [index] at hok
  cases hfi : foldIndex (allPaths t []) (walkFiles t []) [] with
  | ok c =>
    rw [hfi] at hok
    by_cases hc : c.isEmpty
    · simp [hc] at hok
    · simp only [hc, Bool.false_eq_true, if_false, RunResult.ok.injEq] at hok
      rw [hok]
  | error e => rw [hfi] at hok; cases hok
  | crash m => rw [hfi] at hok; cases hok

/-- C9: after a successful `index()`, every offset recorded in any
catalog entry's local-function map is strictly less than the length of
that entry's own content, so indexing content at a recorded offset is
always valid (queries do not mutate the catalog, so the invariant is kept
by every operation). -/
theorem c9_offsets_valid (t : FsEntry) (pd : String) (catalog : Catalog)
    (hok : index (some t) pd = .ok catalog)
    (fp : String) (idx : Index) (hmem : (fp, idx) ∈ catalog)
    (n : String) (off : Nat) (hoff : (n, off) ∈ idx.fn_offsets) :
    off < idx.content.length := by
  have hfi := index_ok_elim t pd catalog hok
  rcases foldIndex_ok_mem _ _ _ _ hfi (fp, idx) hmem with h | ⟨raw, hct, hofs⟩
  · cases h
  · simp only at hct hofs
    rw [hofs] at hoff
    have := find_funcs_lt (contentOf raw) n off (mem_build_fn_offsets _ _ hoff)
    rw [hct]
    exact this

/-- Witness for C9: the indexed `proj/a.js` records `foo` at offset 0,
and its content has length 1. -/
theorem c9_offsets_valid_witness :
    (index (some (.dir "proj"
        (.cons (.file "a.js" (.ok "function foo()")) .nil))) "proj"
      = .ok [("proj/a.js", ⟨["function foo()"], [("foo", 0)], []⟩)])
    ∧ 0 < 1 :=
  ⟨by decide,
    c9_offsets_valid
      (.dir "proj" (.cons (.file "a.js" (.ok "function foo()")) .nil)) "proj"
      [("proj/a.js", ⟨["function foo()"], [("foo", 0)], []⟩)] (by decide)
      "proj/a.js" ⟨["function foo()"], [("foo", 0)], []⟩ (by decide)
      "foo" 0 (by decide)⟩

/-! ## C1: the traversal filter -/

mutual
/-- The directory components of any collected file extend the prefix the
walk started from. -/
theorem allFiles_dirs (t : FsEntry) (pref : List String) (r : FileRec)
    (h : r ∈ allFiles t pref) : ∃ rest, r.dirs = pref ++ rest := by
  cases t with
  | file n d =>
    rw [allFiles, List.mem_singleton] at h
    exact ⟨[], by rw [h, List.append_nil]⟩
  | dir n ch =>
    rw [allFiles] at h
    obtain ⟨rest, hrest⟩ := allFilesL_dirs ch (pref ++ [n]) r h
    exact ⟨[n] ++ rest, by rw [hrest, List.append_assoc]⟩

/-- `allFiles_dirs` over a sibling list. -/
theorem allFilesL_dirs (l : FsList) (pref : List String) (r : FileRec)
    (h : r ∈ allFilesL l pref) : ∃ rest, r.dirs = pref ++ rest := by
  cases l with
  | nil => cases h
  | cons e es =>
    rw [allFilesL, List.mem_append] at h
    rcases h with h | h
    · exact allFiles_dirs e pref r h
    · exact allFilesL_dirs es pref r h
end

mutual
/-- Membership in the filtered walk: a file survives exactly when it is in
the unfiltered collection, its own name passes the file filter, and no
directory component below the walk root is hidden. -/
theorem walk_mem (t : FsEntry) (pref : List String) (r : FileRec) :
    r ∈ walkFiles t pref
      ↔ r ∈ allFiles t pref ∧ fileHidden r.name = false
        ∧ ∀ cdir ∈ r.dirs.drop pref.length, dirHidden cdir = false := by
  cases t with
  | file n d =>
    rw [walkFiles, allFiles]
    by_cases hf : fileHidden n
    · simp only [hf, if_true]
      constructor
      · intro h
        cases h
      · rintro ⟨hmem, hfh, -⟩
        rw [List.mem_singleton] at hmem
        rw [hmem] at hfh
        simp only at hfh
        rw [hf] at hfh
        cases hfh
    · simp only [hf, if_false]
      constructor
      · intro h
        have hr : r = ⟨pref, n, d⟩ := List.mem_singleton.mp h
        refine ⟨h, ?_, ?_⟩
        · rw [hr]
          simpa using hf
        · intro cdir hcdir
          rw [hr] at hcdir
          simp only [List.drop_length] at hcdir
          cases hcdir
      · rintro ⟨hmem, -, -⟩
        exact hmem
  | dir n ch =>
    rw [walkFiles, allFiles]
    by_cases hd : dirHidden n
    · simp only [hd, if_true]
      constructor
      · intro h
        cases h
      · rintro ⟨hmem, -, hclean⟩
        obtain ⟨rest, hrest⟩ := allFilesL_dirs ch (pref ++ [n]) r hmem
        have hn : n ∈ r.dirs.drop pref.length := by
          rw [hrest, List.append_assoc, List.drop_left]
          exact List.mem_cons_self n rest
        have := hclean n hn
        rw [hd] at this
        cases this
    · rw [if_neg hd]
      rw [walk_memL ch (pref ++ [n]) r]
      constructor
      · rintro ⟨hmem, hfh, hclean⟩
        obtain ⟨rest, hrest⟩ := allFilesL_dirs ch (pref ++ [n]) r hmem
        refine ⟨hmem, hfh, ?_⟩
        intro cdir hcdir
        rw [hrest, List.append_assoc, List.drop_left] at hcdir
        rcases List.mem_cons.mp hcdir with rfl | hcdir
        · simpa using hd
        · apply hclean
          rw [hrest, List.drop_left]
          exact hcdir
      · rintro ⟨hmem, hfh, hclean⟩
        obtain ⟨rest, hrest⟩ := allFilesL_dirs ch (pref ++ [n]) r hmem
        refine ⟨hmem, hfh, ?_⟩
        intro cdir hcdir
        apply hclean
        rw [hrest, List.drop_left] at hcdir
        rw [hrest, List.append_assoc, List.drop_left]
        exact List.mem_cons_of_mem n hcdir

/-- `walk_mem` over a sibling list. -/
theorem walk_memL (l : FsList) (pref : List String) (r : FileRec) :
    r ∈ walkFilesL l pref
      ↔ r ∈ allFilesL l pref ∧ fileHidden r.name = false
        ∧ ∀ cdir ∈ r.dirs.drop pref.length, dirHidden cdir = false := by
  cases l with
  | nil =>
    rw [walkFilesL, allFilesL]
    simp
  | cons e es =>
    rw [walkFilesL, allFilesL, List.mem_append, List.mem_append,
      walk_mem e pref r, walk_memL es pref r]
    constructor
    · rintro (⟨h, hc⟩ | ⟨h, hc⟩)
      · exact ⟨Or.inl h, hc⟩
      · exact ⟨Or.inr h, hc⟩
    · rintro ⟨h | h, hc⟩
      · exact Or.inl ⟨h, hc⟩
      · exact Or.inr ⟨h, hc⟩
end

/-- Keys of the catalog after a successful traversal loop: the keys it
started with together with the paths of the processed files. -/
theorem foldIndex_ok_keys (paths : List String) (files : List FileRec)
    (c c' : Catalog) (h : foldIndex paths files c = .ok c') (p : String) :
    p ∈ c'.map Prod.fst ↔ p ∈ c.map Prod.fst ∨ p ∈ files.map recPath := by
  induction files generalizing c with
  | nil =>
    rw [foldIndex, List.foldl_nil] at h
    cases h
    simp
  | cons f files ih =>
    rw [foldIndex, List.foldl_cons] at h
    cases hif : index_file paths c (recPath f) f.data with
    | ok c1 =>
      rw [show indexStep paths (.ok c) f = .ok c1 by
        simp [indexStep, hif]] at h
      rw [show files.foldl (indexStep paths) (.ok c1)
            = foldIndex paths files c1 from rfl] at h
      rw [ih c1 h]
      cases hdata : f.data with
      | error e =>
        rw [hdata] at hif
        rw [show index_file paths c (recPath f) (.error e) = .error e
          from rfl] at hif
        cases hif
      | ok raw =>
        rw [hdata] at hif
        obtain ⟨-, rfl⟩ := index_file_ok paths c (recPath f) raw c1 hif
        rw [mem_keys_insertA]
        simp only [List.map_cons, List.mem_cons]
        constructor
        · rintro ((h | h) | h)
          · exact Or.inr (Or.inl h)
          · exact Or.inl h
          · exact Or.inr (Or.inr h)
        · rintro (h | h | h)
          · exact Or.inl (Or.inr h)
          · exact Or.inl (Or.inl h)
          · exact Or.inr h
    | error e =>
      rw [show indexStep paths (.ok c) f
            = .error ("failed to parse file " ++ e) by
        simp [indexStep, hif]] at h
      rw [foldl_indexStep_error] at h
      cases h
    | crash m =>
      rw [show indexStep paths (.ok c) f = .crash m by
        simp [indexStep, hif]] at h
      rw [foldl_indexStep_crash] at h
      cases h

/-- C1: after a successful `index()`, a file of the tree has its path
among the catalog's keys exactly when its name ends in `.js`, does not
start with `.`, does not contain `test`, and no path component (the walk
root's name, the intermediate directories, and the file name itself)
contains `node_modules`.  The `hnodup` hypothesis says distinct files of
the tree have distinct paths, as on a real file system. -/
theorem c1_catalog_key_iff (t : FsEntry) (pd : String) (catalog : Catalog)
    (hok : index (some t) pd = .ok catalog)
    (hnodup : ((allFiles t []).map recPath).Nodup)
    (r : FileRec) (hr : r ∈ allFiles t []) :
    recPath r ∈ catalog.map Prod.fst
      ↔ strEnds r.name ".js" = true
        ∧ strStarts r.name "." = false
        ∧ strContains r.name "test" = false
        ∧ ∀ comp ∈ r.dirs ++ [r.name],
            strContains comp "node_modules" = false := by
  have hfi := index_ok_elim t pd catalog hok
  have hkeys := foldIndex_ok_keys (allPaths t []) (walkFiles t []) [] catalog
    hfi (recPath r)
  simp only [List.map_nil, List.not_mem_nil, false_or] at hkeys
  rw [hkeys]
  have hsplit : (fileHidden r.name = false
        ∧ ∀ cdir ∈ r.dirs.drop 0, dirHidden cdir = false)
      ↔ (strEnds r.name ".js" = true
        ∧ strStarts r.name "." = false
        ∧ strContains r.name "test" = false
        ∧ ∀ comp ∈ r.dirs ++ [r.name],
            strContains comp "node_modules" = false) := by
    rw [List.drop_zero]
    constructor
    · rintro ⟨hfh, hcl⟩
      rw [fileHidden] at hfh
      simp only [Bool.or_eq_false_iff, Bool.not_eq_false'] at hfh
      obtain ⟨hnm, ⟨hend', hstart'⟩, htest'⟩ := hfh
      refine ⟨hend', hstart', htest', ?_⟩
      intro comp hcomp
      rcases List.mem_append.mp hcomp with hcomp | hcomp
      · exact hcl comp hcomp
      · rw [List.mem_singleton] at hcomp
        rw [hcomp]
        exact hnm
    · rintro ⟨hend, hstart, htest, hcomp⟩
      constructor
      · rw [fileHidden]
        simp only [Bool.or_eq_false_iff, Bool.not_eq_false']
        exact ⟨hcomp r.name (List.mem_append.mpr
            (Or.inr (List.mem_singleton.mpr rfl))),
          ⟨hend, hstart⟩, htest⟩
      · intro cdir hcdir
        exact hcomp cdir (List.mem_append.mpr (Or.inl hcdir))
  constructor
  · intro hmemk
    obtain ⟨r', hr', hpath⟩ := List.mem_map.mp hmemk
    have hr'all := ((walk_mem t [] r').mp hr').1
    have hreq : r' = r :=
      List.inj_on_of_nodup_map hnodup hr'all hr hpath
    rw [hreq] at hr'
    obtain ⟨-, hfh, hcl⟩ := (walk_mem t [] r).mp hr'
    exact hsplit.mp ⟨hfh, by simpa using hcl⟩
  · intro hcond
    obtain ⟨hfh, hcl⟩ := hsplit.mpr hcond
    have : r ∈ walkFiles t [] :=
      (walk_mem t [] r).mpr ⟨hr, hfh, by simpa using hcl⟩
    exact List.mem_map.mpr ⟨r, this, rfl⟩

/-- Witness for C1: in a project with an eligible `a.js`, a `x.test.js`, a
dot-file, a `node_modules` subtree and a non-`.js` file, only `proj/a.js`
is a key; the theorem is applied to the eligible file. -/
theorem c1_catalog_key_iff_witness :
    (index
        (some (.dir "proj"
          (.cons (.file "a.js" (.ok "function foo()"))
            (.cons (.file "x.test.js" (.ok "function t()"))
              (.cons (.file ".h.js" (.ok ""))
                (.cons (.dir "node_modules"
                  (.cons (.file "m.js" (.ok "function m()")) .nil))
                  (.cons (.file "b.txt" (.ok "hi")) .nil)))))))
        "proj"
      = .ok [("proj/a.js", ⟨["function foo()"], [("foo", 0)], []⟩)])
    ∧ ((⟨["proj"], "a.js", .ok "function foo()"⟩ : FileRec)
        ∈ allFiles (.dir "proj"
          (.cons (.file "a.js" (.ok "function foo()"))
            (.cons (.file "x.test.js" (.ok "function t()"))
              (.cons (.file ".h.js" (.ok ""))
                (.cons (.dir "node_modules"
                  (.cons (.file "m.js" (.ok "function m()")) .nil))
                  (.cons (.file "b.txt" (.ok "hi")) .nil)))))) [])
    ∧ (recPath ⟨["proj"], "a.js", .ok "function foo()"⟩
        ∈ ([("proj/a.js",
            (⟨["function foo()"], [("foo", 0)], []⟩ : Index))].map Prod.fst)
      ↔ strEnds "a.js" ".js" = true
        ∧ strStarts "a.js" "." = false
        ∧ strContains "a.js" "test" = false
        ∧ ∀ comp ∈ ["proj"] ++ ["a.js"],
            strContains comp "node_modules" = false) :=
  ⟨by decide, by decide,
    c1_catalog_key_iff
      (.dir "proj"
        (.cons (.file "a.js" (.ok "function foo()"))
          (.cons (.file "x.test.js" (.ok "function t()"))
            (.cons (.file ".h.js" (.ok ""))
              (.cons (.dir "node_modules"
                (.cons (.file "m.js" (.ok "function m()")) .nil))
                (.cons (.file "b.txt" (.ok "hi")) .nil))))))
      "proj"
      [("proj/a.js", ⟨["function foo()"], [("foo", 0)], []⟩)]
      (by decide) (by decide)
      ⟨["proj"], "a.js", .ok "function foo()"⟩ (by decide)⟩

end Codegrep
